import Mathlib

/-!
# Verification of the MagicLink matching engine (src/main.ts)

Shallow embedding of the phrase-detection and indexing engine of
`obsidian-magiclink`.  Text is modelled as `List Char` (a JS string is a
sequence of code units; all concrete test inputs are ASCII, where the two
views coincide and JS string indices are list indices).  JS `Map`s are
modelled as association lists in insertion order with unique keys, matching
the `Map` contract.

Source references are to `src/main.ts` of the repository.
-/

namespace MagicLink

/-- JS `\w` word-character class (no `u` flag): ASCII letters, digits,
underscore.  Used by the tokenizing regexes in `findAllMatches`
(main.ts:253) and `getPhraseAtRange` (main.ts:409-410, 421). -/
def isWordChar (c : Char) : Bool :=
  c.isAlpha || c.isDigit || c == '_'

/-- JS `String.prototype.toLowerCase` restricted to ASCII (all keys and
phrases occurring in the claims are ASCII). -/
def lowerChar (c : Char) : Char :=
  if 'A' ≤ c ∧ c ≤ 'Z' then Char.ofNat (c.toNat + 32) else c

/-- Lowercasing a string, as used for every index key and query
normalization in main.ts. -/
def lowerStr (s : List Char) : List Char := s.map lowerChar

/-- `text.slice(a, b)` for `0 ≤ a ≤ b` (the only way it is used in
main.ts: phrase extraction at main.ts:269, 446 and context extraction at
main.ts:416). -/
def sliceL (text : List Char) (a b : Nat) : List Char :=
  (text.drop a).take (b - a)

/-- A token produced by the `/\w+/g` scans of main.ts: its text and its
half-open character range in the scanned string. -/
structure Token where
  text : List Char
  start : Nat
  stop : Nat
deriving DecidableEq, Repr

/-- The `/\w+/g` tokenizer of main.ts (used at main.ts:253-258 and
main.ts:421-424): maximal runs of word characters, with their offsets,
scanning from position `pos`.  The `fuel` argument (instantiated with the
string length in `tokenize`, an upper bound on the number of scan steps)
makes the recursion structural; each step consumes at least one
character, so the fuel never runs out on the inputs `tokenize` uses. -/
def tokenizeF : Nat → List Char → Nat → List Token
  | 0, _, _ => []
  | _ + 1, [], _ => []
  | fuel + 1, c :: cs, pos =>
    if isWordChar c then
      let w := c :: cs.takeWhile isWordChar
      { text := w, start := pos, stop := pos + w.length } ::
        tokenizeF fuel (cs.dropWhile isWordChar) (pos + w.length)
    else
      tokenizeF fuel cs (pos + 1)

/-- Tokenize a whole string (offsets relative to its start). -/
def tokenize (s : List Char) : List Token := tokenizeF s.length s 0

theorem tokenizeF_start_le_and_lt :
    ∀ (fuel : Nat) (s : List Char) (p : Nat), ∀ t ∈ tokenizeF fuel s p,
      p ≤ t.start ∧ t.start < t.stop := by
  intro fuel
  induction fuel with
  | zero => intro s p t ht; simp [tokenizeF] at ht
  | succ fuel ih =>
    intro s p t ht
    match s with
    | [] => simp [tokenizeF] at ht
    | c :: cs =>
      rw [tokenizeF] at ht
      by_cases hw : isWordChar c
      · simp only [hw, if_pos] at ht
        rcases List.mem_cons.mp ht with h | h
        · subst h; simp
        · have := ih _ _ t h
          refine ⟨le_trans ?_ this.1, this.2⟩
          omega
      · simp only [hw, if_neg, Bool.false_eq_true] at ht
        have := ih _ _ t ht
        exact ⟨le_trans (Nat.le_succ _) this.1, this.2⟩

theorem tokenizeF_pairwise :
    ∀ (fuel : Nat) (s : List Char) (p : Nat),
      (tokenizeF fuel s p).Pairwise (fun a b => a.stop ≤ b.start) := by
  intro fuel
  induction fuel with
  | zero => intro s p; simp [tokenizeF]
  | succ fuel ih =>
    intro s p
    match s with
    | [] => simp [tokenizeF]
    | c :: cs =>
      rw [tokenizeF]
      by_cases hw : isWordChar c
      · simp only [hw, if_pos]
        refine List.pairwise_cons.mpr ⟨?_, ih _ _⟩
        intro t ht
        have := (tokenizeF_start_le_and_lt _ _ _ t ht).1
        simp only []
        omega
      · simp only [hw, if_neg, Bool.false_eq_true]
        exact ih _ _

/-- Every token of `tokenize` is a nonempty range. -/
theorem tokenize_start_lt_stop {s : List Char} {t : Token}
    (h : t ∈ tokenize s) : t.start < t.stop :=
  (tokenizeF_start_le_and_lt s.length s 0 t h).2

/-- Tokens of `tokenize` appear in strictly left-to-right disjoint order. -/
theorem tokenize_pairwise (s : List Char) :
    (tokenize s).Pairwise (fun a b => a.stop ≤ b.start) :=
  tokenizeF_pairwise s.length s 0

/-! ## Index data model (main.ts:57-66, 611-639) -/

/-- A back-reference to a vault file, the `TFile` fields the engine reads
(`path`, `basename`).  In Obsidian the basename is derived from the path;
well-formedness hypotheses below record that coherence where needed. -/
structure FileRef where
  path : List Char
  basename : List Char
deriving DecidableEq, Repr

/-- `HeadingMatch` (main.ts:57). -/
structure HeadingMatch where
  file : FileRef
  heading : List Char
  line : Nat
deriving DecidableEq, Repr

/-- `TagMatch` (main.ts:58). -/
structure TagMatch where
  file : FileRef
  tag : List Char
  line : Nat
deriving DecidableEq, Repr

/-- `PropertyMatch` (main.ts:59). -/
structure PropertyMatch where
  file : FileRef
  property : List Char
  value : List Char
deriving DecidableEq, Repr

/-- `Map.get(k)`: value at the key, if present (JS `Map` keys are unique;
for the association-list model, first occurrence). -/
def mapGet {ν : Type} (k : List Char) (m : List (List Char × ν)) : Option ν :=
  (m.find? (fun e => e.1 = k)).map (·.2)

/-- `Map.has(k)` (used by the four index lookups, main.ts:241-244, 638). -/
def mapHas {ν : Type} (k : List Char) (m : List (List Char × ν)) : Bool :=
  m.any (fun e => e.1 = k)

/-- `Map.set(k, v)`: replace the value at an existing key in place (JS
`Map.set` keeps the key's insertion position), else append. -/
def mapSet {ν : Type} (k : List Char) (v : ν) :
    List (List Char × ν) → List (List Char × ν)
  | [] => [(k, v)]
  | e :: rest => if e.1 = k then (k, v) :: rest else e :: mapSet k v rest

/-- `Map.delete(k)`: remove the key's entry, leaving the others in order. -/
def mapDelete {ν : Type} (k : List Char) (m : List (List Char × ν)) :
    List (List Char × ν) :=
  m.filter (fun e => e.1 ≠ k)

/-- The engine state: the settings fields read by the matching engine
(main.ts:3-28) plus the four mappings and the excluded-word set
(main.ts:63-67).  `maxPhraseWords` and `minWordLength` are JS numbers that
may hold out-of-range values when the persisted data is malformed, hence
`Int`.  (`minWordLength` is the spec's `minMatchLength`.) -/
structure EngineState where
  detectNotes : Bool
  detectHeadings : Bool
  detectTags : Bool
  detectProperties : Bool
  maxPhraseWords : Int
  minWordLength : Int
  excludedWords : List (List Char)
  noteIndex : List (List Char × List FileRef)
  headingIndex : List (List Char × List HeadingMatch)
  tagIndex : List (List Char × List TagMatch)
  propertyIndex : List (List Char × List PropertyMatch)
deriving DecidableEq, Repr

/-! ## Excluded words and classification (main.ts:169-172, 236-250) -/

/-- JS `String.prototype.trim` (ASCII whitespace suffices here). -/
def trimL (s : List Char) : List Char :=
  ((s.dropWhile (fun c => c = ' ' ∨ c = '\t' ∨ c = '\n' ∨ c = '\r')).reverse.dropWhile
    (fun c => c = ' ' ∨ c = '\t' ∨ c = '\n' ∨ c = '\r')).reverse

/-- JS `String.prototype.split(',')`. -/
def splitComma : List Char → List (List Char)
  | [] => [[]]
  | c :: cs =>
    if c = ',' then [] :: splitComma cs
    else
      match splitComma cs with
      | [] => [[c]]
      | g :: gs => (c :: g) :: gs

/-- `updateExcludedWords` (main.ts:169-172): split the setting on commas,
trim and lowercase each piece, and collect the nonempty ones into a `Set`
(modelled as an insertion-ordered duplicate-free list). -/
def updateExcludedWords (setting : List Char) : List (List Char) :=
  ((splitComma setting).map (fun wd => lowerStr (trimL wd))).foldl
    (fun acc wd => if wd = [] ∨ wd ∈ acc then acc else acc ++ [wd]) []

/-- `isExcluded` (main.ts:236): membership of the lowercased word in the
excluded-word set. -/
def isExcluded (st : EngineState) (word : List Char) : Bool :=
  st.excludedWords.contains (lowerStr word)

/-- `NoteIndex.hasMatch` (main.ts:638). -/
def noteHasMatch (st : EngineState) (name : List Char) : Bool :=
  mapHas (lowerStr name) st.noteIndex

/-- The four match categories returned by `getMatchType` (main.ts:238). -/
inductive MatchCategory where
  | note
  | heading
  | tag
  | property
deriving DecidableEq, Repr

/-- `getMatchType` (main.ts:238-246): reject excluded phrases, then test
the four indexes in the fixed order note → heading → tag → property,
guarded by the per-category detection flags. -/
def getMatchType (st : EngineState) (phrase : List Char) :
    Option MatchCategory :=
  if isExcluded st phrase then none
  else
    let key := lowerStr phrase
    if st.detectNotes && noteHasMatch st phrase then some .note
    else if st.detectHeadings && mapHas key st.headingIndex then some .heading
    else if st.detectTags && mapHas key st.tagIndex then some .tag
    else if st.detectProperties && mapHas key st.propertyIndex then some .property
    else none

/-- `hasAnyMatch` (main.ts:248-250). -/
def hasAnyMatch (st : EngineState) (phrase : List Char) : Bool :=
  (getMatchType st phrase).isSome

/-- Spec-side restatement of the index-testing stage of classification:
whether `cat`'s index holds the phrase's normalized key and `cat`'s
detection flag is enabled (spec §4.5). -/
def categoryHit (st : EngineState) (phrase : List Char) :
    MatchCategory → Bool
  | .note => st.detectNotes && noteHasMatch st phrase
  | .heading => st.detectHeadings && mapHas (lowerStr phrase) st.headingIndex
  | .tag => st.detectTags && mapHas (lowerStr phrase) st.tagIndex
  | .property => st.detectProperties && mapHas (lowerStr phrase) st.propertyIndex

/-- The fixed priority order note → heading → tag → property (spec §4.5). -/
def priorityRank : MatchCategory → Nat
  | .note => 0
  | .heading => 1
  | .tag => 2
  | .property => 3

/-- Spec-side classification without the exclusion guard: the first
enabled category, in priority order, whose index holds the key. -/
def matchTypeByIndex (st : EngineState) (phrase : List Char) :
    Option MatchCategory :=
  if categoryHit st phrase .note then some .note
  else if categoryHit st phrase .heading then some .heading
  else if categoryHit st phrase .tag then some .tag
  else if categoryHit st phrase .property then some .property
  else none

/-! ## Lowercasing facts -/

theorem toNat_ofNat_of_valid {n : Nat} (h : n.isValidChar) :
    (Char.ofNat n).toNat = n := by
  unfold Char.ofNat
  rw [dif_pos h]
  rfl

theorem lowerChar_of_not_upper {c : Char} (h : ¬('A' ≤ c ∧ c ≤ 'Z')) :
    lowerChar c = c := by
  unfold lowerChar
  rw [if_neg h]

theorem lowerChar_idem (c : Char) : lowerChar (lowerChar c) = lowerChar c := by
  by_cases h : 'A' ≤ c ∧ c ≤ 'Z'
  · have h90 : c.toNat ≤ 90 := by
      have h2 := h.2
      rw [Char.le_def, UInt32.le_def, BitVec.le_def] at h2
      exact h2
    have hv : (c.toNat + 32).isValidChar := Or.inl (by omega)
    have ht : (lowerChar c).toNat = c.toNat + 32 := by
      unfold lowerChar
      rw [if_pos h]
      exact toNat_ofNat_of_valid hv
    have h65 : 65 ≤ c.toNat := by
      have h1 := h.1
      rw [Char.le_def, UInt32.le_def, BitVec.le_def] at h1
      exact h1
    apply lowerChar_of_not_upper
    intro hcon
    have h2' : (lowerChar c).toNat ≤ 90 := by
      have h2 := hcon.2
      rw [Char.le_def, UInt32.le_def, BitVec.le_def] at h2
      exact h2
    omega
  · rw [lowerChar_of_not_upper h, lowerChar_of_not_upper h]

theorem lowerStr_idem (s : List Char) : lowerStr (lowerStr s) = lowerStr s := by
  unfold lowerStr
  rw [List.map_map]
  exact List.map_congr_left fun c _ => lowerChar_idem c

/-! ## Claims C9, C6, C1 — classification -/

/-- Abbreviation for writing concrete texts in witnesses. -/
def str (s : String) : List Char := s.toList

/-- **C9**: classification is case-insensitive in its query argument:
`getMatchType` applied to the lowercased phrase equals `getMatchType` on
the phrase itself, because the excluded-word test (main.ts:236), the note
lookup (main.ts:638) and the heading/tag/property key (main.ts:240) all
lowercase the phrase before comparison. -/
theorem getMatchType_lower_invariant (st : EngineState) (p : List Char) :
    getMatchType st (lowerStr p) = getMatchType st p := by
  unfold getMatchType isExcluded noteHasMatch
  rw [lowerStr_idem]

theorem rank_lt_note_iff (P : MatchCategory → Prop) :
    (∀ c, priorityRank c < priorityRank .note → P c) ↔ True := by
  constructor
  · intro _; trivial
  · intro _ c hc
    cases c <;> simp [priorityRank] at hc

theorem rank_lt_heading_iff (P : MatchCategory → Prop) :
    (∀ c, priorityRank c < priorityRank .heading → P c) ↔ P .note := by
  constructor
  · intro h; exact h .note (by simp [priorityRank])
  · intro h c hc
    cases c
    · exact h
    · simp [priorityRank] at hc
    · simp [priorityRank] at hc
    · simp [priorityRank] at hc

theorem rank_lt_tag_iff (P : MatchCategory → Prop) :
    (∀ c, priorityRank c < priorityRank .tag → P c) ↔ P .note ∧ P .heading := by
  constructor
  · intro h; exact ⟨h .note (by simp [priorityRank]), h .heading (by simp [priorityRank])⟩
  · intro h c hc
    cases c <;> simp [priorityRank] at hc
    · exact h.1
    · exact h.2

theorem rank_lt_property_iff (P : MatchCategory → Prop) :
    (∀ c, priorityRank c < priorityRank .property → P c) ↔
      P .note ∧ P .heading ∧ P .tag := by
  constructor
  · intro h
    exact ⟨h .note (by simp [priorityRank]), h .heading (by simp [priorityRank]),
      h .tag (by simp [priorityRank])⟩
  · intro h c hc
    cases c <;> simp [priorityRank] at hc
    · exact h.1
    · exact h.2.1
    · exact h.2.2

theorem matchTypeByIndex_spec (st : EngineState) (p : List Char)
    (c : MatchCategory) :
    matchTypeByIndex st p = some c ↔
      (categoryHit st p c = true ∧
        ∀ c', priorityRank c' < priorityRank c → categoryHit st p c' = false) := by
  cases c <;>
    rw [matchTypeByIndex] <;>
    [rw [rank_lt_note_iff]; rw [rank_lt_heading_iff]; rw [rank_lt_tag_iff];
      rw [rank_lt_property_iff]] <;>
    cases h1 : categoryHit st p .note <;>
    cases h2 : categoryHit st p .heading <;>
    cases h3 : categoryHit st p .tag <;>
    cases h4 : categoryHit st p .property <;>
      simp [h1, h2, h3, h4]

theorem getMatchType_eq_byIndex (st : EngineState) (p : List Char)
    (h : isExcluded st p = false) :
    getMatchType st p = matchTypeByIndex st p := by
  unfold getMatchType matchTypeByIndex categoryHit
  rw [h]
  simp

/-- **C6**: for a phrase that reaches the index tests (the `else` branch
of classification), `getMatchType` returns `some c` exactly when `c`'s
index holds the phrase's normalized key with `c`'s detection flag
enabled, and no category of strictly higher priority (lower rank, in the
fixed order note → heading → tag → property) does; being an `Option`, the
result is at most one category even when several indexes match. -/
theorem c6_classification_priority (st : EngineState) (p : List Char)
    (h : isExcluded st p = false) (c : MatchCategory) :
    getMatchType st p = some c ↔
      (categoryHit st p c = true ∧
        ∀ c', priorityRank c' < priorityRank c → categoryHit st p c' = false) := by
  rw [getMatchType_eq_byIndex st p h]
  exact matchTypeByIndex_spec st p c

/-- Engine state for the C6 witness: "Setup" is simultaneously a heading
key and a tag key; classification must report only `heading`. -/
def c6State : EngineState :=
  { detectNotes := true, detectHeadings := true, detectTags := true,
    detectProperties := true, maxPhraseWords := 5, minWordLength := 2,
    excludedWords := updateExcludedWords (str "the, and, for"),
    noteIndex := [],
    headingIndex := [(str "setup", [⟨⟨str "b.md", str "b"⟩, str "Setup", 2⟩])],
    tagIndex := [(str "setup", [⟨⟨str "c.md", str "c"⟩, str "setup", 4⟩])],
    propertyIndex := [] }

theorem c6_classification_priority_witness :
    isExcluded c6State (str "Setup") = false ∧
      (getMatchType c6State (str "Setup") = some .heading ↔
        (categoryHit c6State (str "Setup") .heading = true ∧
          ∀ c', priorityRank c' < priorityRank .heading →
            categoryHit c6State (str "Setup") c' = false)) :=
  ⟨by decide, c6_classification_priority c6State (str "Setup") (by decide) .heading⟩

/-- **C1** (amended): the exclusion test is applied to the whole phrase,
single- or multi-word: classification returns `none` exactly when the
entire normalized phrase is an entry of the excluded-word set, and
otherwise proceeds to the priority lookup untouched.  In particular a
single excluded token classifies to `none`, and exclusion of a
constituent word alone never suppresses a multi-word phrase — but a
multi-word phrase *is* suppressed when the whole phrase is itself an
entry of `excludedWords` (entries may contain spaces, since the setting
is split only on commas, main.ts:171). -/
theorem c1_exclusion_whole_phrase (st : EngineState) (p : List Char) :
    getMatchType st p =
      if st.excludedWords.contains (lowerStr p) then none
      else matchTypeByIndex st p := by
  by_cases h : st.excludedWords.contains (lowerStr p)
  · rw [if_pos h]
    unfold getMatchType isExcluded
    rw [if_pos h]
  · rw [if_neg h]
    exact getMatchType_eq_byIndex st p (by simpa [isExcluded] using h)

/-- Engine state for the C1 counterexample: the exclusion setting is the
single entry "the matrix", and "The Matrix" is an indexed note title. -/
def c1State : EngineState :=
  { detectNotes := true, detectHeadings := true, detectTags := true,
    detectProperties := true, maxPhraseWords := 5, minWordLength := 2,
    excludedWords := updateExcludedWords (str "the matrix"),
    noteIndex := [(str "the matrix", [⟨str "The Matrix.md", str "The Matrix"⟩])],
    headingIndex := [], tagIndex := [], propertyIndex := [] }

/-- **C1** counterexample: "The Matrix" is a phrase of two tokens, yet its
classification *is* suppressed by the exclusion list (it returns `none`,
and returns `some note` once the exclusion list is emptied), refuting
"for every phrase of two or more tokens, classification is never
suppressed by the exclusion list". -/
theorem c1_counterexample :
    (tokenize (str "The Matrix")).length = 2 ∧
    getMatchType c1State (str "The Matrix") = none ∧
    getMatchType { c1State with excludedWords := [] } (str "The Matrix") =
      some MatchCategory.note :=
  ⟨by decide, by decide, by decide⟩

/-! ## `findAllMatches` and the span selection of `postProcessor`
(main.ts:252-280, 298-317) -/

/-- One entry of the `matches` array of `findAllMatches` (main.ts:260):
`{phrase, type, start, end}`. -/
structure MatchItem where
  phrase : List Char
  type : MatchCategory
  start : Nat
  stop : Nat
deriving DecidableEq, Repr

/-- The values taken by `len` in
`for (let len = maxPhraseWords; len >= 1; len--)` (main.ts:263, 436):
`[maxPhraseWords, …, 1]`, empty when `maxPhraseWords ≤ 0`. -/
def lensDesc (mpw : Int) : List Nat :=
  (List.range mpw.toNat).reverse.map (· + 1)

/-- The body of the inner loop of `findAllMatches` (main.ts:264-276): the
candidate starting at token `i` spanning `len` tokens, if it passes the
bounds check, the minimum-length check and classification. -/
def candidateForLen (st : EngineState) (text : List Char) (ws : List Token)
    (i len : Nat) : Option MatchItem :=
  if i + len > ws.length then none
  else
    match (ws.drop i).take len with
    | [] => none
    | w :: rest =>
      let start := w.start
      let stop := (((w :: rest).getLast?).getD w).stop
      let phrase := sliceL text start stop
      if st.minWordLength ≤ (phrase.length : Int) then
        match getMatchType st phrase with
        | some t => some ⟨phrase, t, start, stop⟩
        | none => none
      else none

/-- `findAllMatches` (main.ts:252-280): tokenize the text, and for every
token index `i` (ascending) and every `len` from `maxPhraseWords` down to
1, collect the successful candidates in scan order. -/
def findAllMatches (st : EngineState) (text : List Char) : List MatchItem :=
  let ws := tokenize text
  (List.range ws.length).flatMap (fun i =>
    (lensDesc st.maxPhraseWords).filterMap (fun len =>
      candidateForLen st text ws i len))

/-- The occupied-array check of `postProcessor` (main.ts:301-307): some
character position of `m` is already claimed by an accepted match.  (A
position is occupied exactly when a previously accepted match's range
contains it, main.ts:310.) -/
def overlapHit (m : MatchItem) (acc : List MatchItem) : Bool :=
  (List.range' m.start (m.stop - m.start)).any (fun i =>
    acc.any (fun a => decide (a.start ≤ i ∧ i < a.stop)))

/-- The greedy acceptance loop of `postProcessor` (main.ts:303-312):
process matches in order, accepting each one whose positions are all
free. -/
def acceptLoop : List MatchItem → List MatchItem → List MatchItem
  | [], acc => acc
  | m :: rest, acc =>
    if overlapHit m acc then acceptLoop rest acc
    else acceptLoop rest (acc ++ [m])

/-- Span length `end - start`, the sort key of main.ts:299. -/
def lenOf (m : MatchItem) : Nat := m.stop - m.start

/-- The overlap-filtering pipeline of `postProcessor` (main.ts:294-317),
the spec's `selectSpans`: collect all matches, sort by span length
descending (JS `Array.prototype.sort` is stable; the comparator
`(b.end-b.start)-(a.end-a.start)` orders longer first), greedily accept
non-overlapping ones, and re-sort the accepted spans by start position
ascending (comparator `a.start - b.start`, main.ts:317). -/
def selectSpans (st : EngineState) (text : List Char) : List MatchItem :=
  let ms := findAllMatches st text
  let sorted := ms.mergeSort (fun a b => decide (lenOf b ≤ lenOf a))
  let accepted := acceptLoop sorted []
  accepted.mergeSort (fun a b => decide (a.start ≤ b.start))

/-- Match `m` claims character position `i` (main.ts:305, 310). -/
def spanContains (m : MatchItem) (i : Nat) : Prop :=
  m.start ≤ i ∧ i < m.stop

/-- Two matches claim a common character position. -/
def sharesPos (a b : MatchItem) : Prop :=
  ∃ i, spanContains a i ∧ spanContains b i

theorem sharesPos_symm {a b : MatchItem} (h : sharesPos a b) : sharesPos b a :=
  let ⟨i, hi⟩ := h; ⟨i, hi.2, hi.1⟩

theorem notShares_symmetric :
    Symmetric (fun a b : MatchItem => ¬ sharesPos a b) :=
  fun _ _ h hs => h (sharesPos_symm hs)

theorem mem_range'_iff {s n i : Nat} :
    i ∈ List.range' s n ↔ s ≤ i ∧ i < s + n := by
  rw [List.mem_range']
  constructor
  · rintro ⟨j, hj, rfl⟩; omega
  · intro h; exact ⟨i - s, by omega, by omega⟩

theorem overlapHit_true_iff {m : MatchItem} {acc : List MatchItem} :
    overlapHit m acc = true ↔ ∃ a ∈ acc, sharesPos m a := by
  unfold overlapHit
  simp only [List.any_eq_true, mem_range'_iff, decide_eq_true_eq]
  constructor
  · rintro ⟨i, hi, a, ha, hai⟩
    exact ⟨a, ha, i, ⟨by omega, by omega⟩, hai⟩
  · rintro ⟨a, ha, i, ⟨h1, h2⟩, hai⟩
    exact ⟨i, ⟨h1, by omega⟩, a, ha, hai⟩

theorem overlapHit_false_iff {m : MatchItem} {acc : List MatchItem} :
    overlapHit m acc = false ↔ ∀ a ∈ acc, ¬ sharesPos m a := by
  rw [Bool.eq_false_iff, Ne, overlapHit_true_iff]
  simp

theorem acceptLoop_mem_of :
    ∀ (pending acc : List MatchItem) (x : MatchItem),
      x ∈ acceptLoop pending acc → x ∈ acc ∨ x ∈ pending := by
  intro pending
  induction pending with
  | nil => intro acc x hx; exact Or.inl hx
  | cons m rest ih =>
    intro acc x hx
    rw [acceptLoop] at hx
    by_cases h : overlapHit m acc
    · rw [if_pos h] at hx
      rcases ih acc x hx with h' | h'
      · exact Or.inl h'
      · exact Or.inr (List.mem_cons_of_mem _ h')
    · rw [if_neg h] at hx
      rcases ih _ x hx with h' | h'
      · rcases List.mem_append.mp h' with h'' | h''
        · exact Or.inl h''
        · exact Or.inr (List.mem_cons.mpr (Or.inl (List.mem_singleton.mp h'')))
      · exact Or.inr (List.mem_cons_of_mem _ h')

theorem acceptLoop_mono :
    ∀ (pending acc : List MatchItem) (x : MatchItem),
      x ∈ acc → x ∈ acceptLoop pending acc := by
  intro pending
  induction pending with
  | nil => intro acc x hx; exact hx
  | cons m rest ih =>
    intro acc x hx
    rw [acceptLoop]
    by_cases h : overlapHit m acc
    · rw [if_pos h]; exact ih acc x hx
    · rw [if_neg h]; exact ih _ x (List.mem_append_left _ hx)

theorem acceptLoop_pairwise :
    ∀ (pending acc : List MatchItem),
      acc.Pairwise (fun a b => ¬ sharesPos a b) →
      (acceptLoop pending acc).Pairwise (fun a b => ¬ sharesPos a b) := by
  intro pending
  induction pending with
  | nil => intro acc h; exact h
  | cons m rest ih =>
    intro acc hacc
    rw [acceptLoop]
    by_cases h : overlapHit m acc
    · rw [if_pos h]; exact ih acc hacc
    · rw [if_neg h]
      apply ih
      rw [List.pairwise_append]
      refine ⟨hacc, List.pairwise_singleton _ _, ?_⟩
      intro a ha b hb
      rw [List.mem_singleton] at hb
      subst hb
      intro hshare
      exact (overlapHit_false_iff.mp (Bool.eq_false_iff.mpr h) a ha)
        (sharesPos_symm hshare)

theorem acceptLoop_reject :
    ∀ (pending acc : List MatchItem),
      pending.Pairwise (fun x y => lenOf y ≤ lenOf x) →
      (∀ a ∈ acc, ∀ c ∈ pending, lenOf c ≤ lenOf a) →
      ∀ c ∈ pending, c ∉ acceptLoop pending acc →
        ∃ a ∈ acceptLoop pending acc, sharesPos a c ∧ lenOf c ≤ lenOf a := by
  intro pending
  induction pending with
  | nil => intro acc _ _ c hc; exact absurd hc (List.not_mem_nil c)
  | cons m rest ih =>
    intro acc hsort hbound c hc hnot
    rw [acceptLoop] at hnot ⊢
    by_cases h : overlapHit m acc
    · rw [if_pos h] at hnot ⊢
      rcases List.mem_cons.mp hc with rfl | hcr
      · rcases overlapHit_true_iff.mp h with ⟨a, ha, hshare⟩
        refine ⟨a, acceptLoop_mono rest acc a ha, sharesPos_symm hshare, ?_⟩
        exact hbound a ha c (List.mem_cons_self _ _)
      · exact ih acc (List.Pairwise.sublist (List.sublist_cons_self m rest) hsort)
          (fun a ha c' hc' => hbound a ha c' (List.mem_cons_of_mem _ hc'))
          c hcr hnot
    · rw [if_neg h] at hnot ⊢
      rcases List.mem_cons.mp hc with rfl | hcr
      · exact absurd (acceptLoop_mono rest _ c
          (List.mem_append_right _ (List.mem_singleton_self c))) hnot
      · refine ih _ (List.Pairwise.sublist (List.sublist_cons_self m rest) hsort) ?_ c hcr hnot
        intro a ha c' hc'
        rcases List.mem_append.mp ha with ha' | ha'
        · exact hbound a ha' c' (List.mem_cons_of_mem _ hc')
        · rw [List.mem_singleton] at ha'
          subst ha'
          exact (List.pairwise_cons.mp hsort).1 c' hc'

theorem candidateForLen_inv {st : EngineState} {text : List Char}
    {i len : Nat} {m : MatchItem}
    (h : candidateForLen st text (tokenize text) i len = some m) :
    m.start < m.stop ∧ st.minWordLength ≤ (m.phrase.length : Int) := by
  rw [candidateForLen] at h
  split at h
  · exact absurd h (by simp)
  · split at h
    · exact absurd h (by simp)
    · rename_i w rest heq
      dsimp only at h
      split at h
      · rename_i hlen
        split at h
        · rename_i t hty
          injection h with h
          subst h
          refine ⟨?_, hlen⟩
          show w.start < (((w :: rest).getLast?).getD w).stop
          have hsub : List.Sublist (w :: rest) (tokenize text) := by
            rw [← heq]
            exact (List.take_sublist _ _).trans (List.drop_sublist _ _)
          have hpw : (w :: rest).Pairwise (fun a b => a.stop ≤ b.start) :=
            List.Pairwise.sublist hsub (tokenize_pairwise text)
          have hlast_mem : ((w :: rest).getLast?).getD w ∈ w :: rest := by
            rw [List.getLast?_eq_getLast _ (List.cons_ne_nil w rest)]
            exact List.getLast_mem _
          rcases List.mem_cons.mp hlast_mem with hl | hl
          · rw [hl]
            exact tokenize_start_lt_stop (hsub.subset (List.mem_cons_self _ _))
          · have h1 := (List.pairwise_cons.mp hpw).1 _ hl
            have h2 := tokenize_start_lt_stop (hsub.subset (List.mem_cons_self w rest))
            have h3 := tokenize_start_lt_stop (hsub.subset hlast_mem)
            omega
        · exact absurd h (by simp)
      · exact absurd h (by simp)

theorem findAllMatches_inv {st : EngineState} {text : List Char} :
    ∀ m ∈ findAllMatches st text,
      m.start < m.stop ∧ st.minWordLength ≤ (m.phrase.length : Int) := by
  intro m hm
  rw [findAllMatches] at hm
  simp only [List.mem_flatMap, List.mem_filterMap] at hm
  obtain ⟨i, _, len, _, hc⟩ := hm
  exact candidateForLen_inv hc

theorem selectSpans_subset (st : EngineState) (text : List Char) :
    ∀ m ∈ selectSpans st text, m ∈ findAllMatches st text := by
  intro m hm
  rw [selectSpans, List.mem_mergeSort] at hm
  rcases acceptLoop_mem_of _ _ _ hm with h | h
  · exact absurd h (List.not_mem_nil m)
  · rw [List.mem_mergeSort] at h
    exact h

/-- **C2** (amended): the minimum-length rule lives in `findAllMatches`
(main.ts:271), which feeds `selectSpans`: every collected match and every
accepted span has phrase length ≥ `minWordLength`.  (Classification
itself, `getMatchType`, performs no length check, and hover resolution
`getPhraseAtRange` never applies the rule — see the counterexample.) -/
theorem c2_min_length_rule_selectSpans (st : EngineState) (text : List Char) :
    (∀ m ∈ findAllMatches st text,
        st.minWordLength ≤ (m.phrase.length : Int)) ∧
    (∀ m ∈ selectSpans st text,
        st.minWordLength ≤ (m.phrase.length : Int)) := by
  refine ⟨fun m hm => (findAllMatches_inv m hm).2, fun m hm => ?_⟩
  exact (findAllMatches_inv m (selectSpans_subset st text m hm)).2

/-- **C3**: the spans accepted by `selectSpans` are pairwise
non-overlapping (earlier-starting span ends at or before the later one
starts), each character position lies in at most one accepted span, the
output is sorted by start offset ascending, and the selection is
longest-preferring regardless of scan order: a collected candidate is
only rejected in favour of an overlapping accepted span of at least its
length (so a strictly longer candidate never loses to a shorter
overlapping one). -/
theorem c3_selectSpans_disjoint_sorted_longest (st : EngineState)
    (text : List Char) :
    (∀ a ∈ selectSpans st text, ∀ b ∈ selectSpans st text,
        a.start < b.start → a.stop ≤ b.start) ∧
    (∀ a ∈ selectSpans st text, ∀ b ∈ selectSpans st text, ∀ i : Nat,
        spanContains a i → spanContains b i → a = b) ∧
    (selectSpans st text).Pairwise (fun a b => a.start ≤ b.start) ∧
    (∀ c ∈ findAllMatches st text, c ∉ selectSpans st text →
      ∃ a ∈ selectSpans st text, sharesPos a c ∧ lenOf c ≤ lenOf a) := by
  have hsel : selectSpans st text =
      (acceptLoop ((findAllMatches st text).mergeSort
          (fun a b => decide (lenOf b ≤ lenOf a))) []).mergeSort
        (fun a b => decide (a.start ≤ b.start)) := rfl
  have hmem : ∀ x : MatchItem, x ∈ selectSpans st text ↔
      x ∈ acceptLoop ((findAllMatches st text).mergeSort
        (fun a b => decide (lenOf b ≤ lenOf a))) [] := by
    intro x
    rw [hsel, List.mem_mergeSort]
  have hPWout : (selectSpans st text).Pairwise (fun a b => ¬ sharesPos a b) := by
    rw [hsel]
    exact ((List.mergeSort_perm _ _).pairwise_iff
        (fun h hs => h (sharesPos_symm hs))).mpr
      (acceptLoop_pairwise _ [] List.Pairwise.nil)
  have hforall : ∀ a ∈ selectSpans st text, ∀ b ∈ selectSpans st text,
      a ≠ b → ¬ sharesPos a b :=
    fun a ha b hb hne =>
      List.Pairwise.forall notShares_symmetric hPWout ha hb hne
  refine ⟨?_, ?_, ?_, ?_⟩
  · intro a ha b hb hlt
    by_contra hcon
    have hab : a ≠ b := by
      intro he
      rw [he] at hlt
      exact lt_irrefl _ hlt
    have hbne : b.start < b.stop :=
      (findAllMatches_inv b (selectSpans_subset st text b hb)).1
    exact hforall a ha b hb hab
      ⟨b.start, ⟨by omega, by omega⟩, ⟨le_refl _, hbne⟩⟩
  · intro a ha b hb i hia hib
    by_contra hne
    exact hforall a ha b hb hne ⟨i, hia, hib⟩
  · rw [hsel]
    refine List.Pairwise.imp (fun h => of_decide_eq_true h)
      (List.sorted_mergeSort ?_ ?_ _)
    · intro a b c hab hbc
      simp only [decide_eq_true_eq] at *
      omega
    · intro a b
      rcases Nat.le_total a.start b.start with h | h <;> simp [h]
  · intro c hcms hcnot
    have hdesc : ((findAllMatches st text).mergeSort
        (fun a b => decide (lenOf b ≤ lenOf a))).Pairwise
          (fun x y => lenOf y ≤ lenOf x) := by
      refine List.Pairwise.imp (fun h => of_decide_eq_true h)
        (List.sorted_mergeSort ?_ ?_ _)
      · intro a b c hab hbc
        simp only [decide_eq_true_eq] at *
        omega
      · intro a b
        rcases Nat.le_total (lenOf a) (lenOf b) with h | h <;> simp [h]
    have hcs : c ∈ (findAllMatches st text).mergeSort
        (fun a b => decide (lenOf b ≤ lenOf a)) := by
      rw [List.mem_mergeSort]
      exact hcms
    have hcna : c ∉ acceptLoop ((findAllMatches st text).mergeSort
        (fun a b => decide (lenOf b ≤ lenOf a))) [] :=
      fun hca => hcnot ((hmem c).mpr hca)
    obtain ⟨a, haacc, hsh, hlen⟩ :=
      acceptLoop_reject _ [] hdesc (by intro a ha; exact absurd ha (List.not_mem_nil a))
        c hcs hcna
    exact ⟨a, (hmem a).mpr haacc, hsh, hlen⟩

/-! ## `getPhraseAtRange` — hover resolution (main.ts:401-455) -/

/-- The left scan of main.ts:409: decrement `wordStart` while the
preceding character is a word character.  (Out-of-range reads yield a
non-word default; the caller always passes an in-range offset.) -/
def wordStartFrom (text : List Char) : Nat → Nat
  | 0 => 0
  | k + 1 => if isWordChar (text.getD k ' ') then wordStartFrom text k else k + 1

/-- The right scan of main.ts:410: advance `wordEnd` while it is in range
and sits on a word character. -/
def wordEndFrom (text : List Char) (j : Nat) : Nat :=
  j + ((text.drop j).takeWhile isWordChar).length

/-- Steps 405-418 of `getPhraseAtRange`: expand the hover offset to the
surrounding word; if the offset touches no word characters return none,
else cut the ±100-character context window and return it together with
the word start's offset inside it (`relativeOffset`). -/
def resolveContext (text : List Char) (offset : Nat) :
    Option (List Char × Nat) :=
  let wordStart := wordStartFrom text offset
  let wordEnd := wordEndFrom text offset
  if wordStart = wordEnd then none
  else
    let contextStart := wordStart - 100
    let contextEnd := min text.length (wordEnd + 100)
    some (sliceL text contextStart contextEnd, wordStart - contextStart)

/-- The candidate test in the search loops of main.ts:436-452, for a given
`len` and `startOffset`: bounds-check `startIdx`/`endIdx`, build the
phrase as the context substring spanning the chosen tokens, and return it
if `hasAnyMatch` accepts it. -/
def resolveCandidate (st : EngineState) (context : List Char)
    (words : List Token) (cursorWordIndex len so : Nat) :
    Option (List Char) :=
  if so > cursorWordIndex then none
  else
    let startIdx := cursorWordIndex - so
    let endIdx := startIdx + len
    if endIdx > words.length then none
    else
      match (words.drop startIdx).take len with
      | [] => none
      | w :: rest =>
        let phrase := sliceL context w.start ((((w :: rest).getLast?).getD w).stop)
        if hasAnyMatch st phrase then some phrase else none

/-- `getPhraseAtRange` (main.ts:401-455), the spec's `resolve`: find the
context window, locate the token containing the hover offset, then search
lengths from `maxPhraseWords` down to 1 and start offsets 0 to `len-1`,
returning the first candidate phrase that matches any index. -/
def getPhraseAtRange (st : EngineState) (text : List Char) (offset : Nat) :
    Option (List Char) :=
  match resolveContext text offset with
  | none => none
  | some (context, relativeOffset) =>
    let words := tokenize context
    match words.findIdx? (fun w =>
        decide (w.start ≤ relativeOffset ∧ relativeOffset ≤ w.stop)) with
    | none => none
    | some cursorWordIndex =>
      (lensDesc st.maxPhraseWords).findSome? (fun len =>
        (List.range len).findSome? (fun so =>
          resolveCandidate st context words cursorWordIndex len so))

/-- The source text of the span of `len` consecutive tokens of `ws`
starting at token index `i` (the phrase construction of main.ts:443-446),
if that many tokens exist. -/
def tokenSpanPhrase (ctx : List Char) (ws : List Token) (i len : Nat) :
    Option (List Char) :=
  match (ws.drop i).take len with
  | [] => none
  | w :: rest =>
    some (sliceL ctx w.start ((((w :: rest).getLast?).getD w).stop))

theorem mem_lensDesc {mpw : Int} {len : Nat} (h : len ∈ lensDesc mpw) :
    1 ≤ len ∧ (len : Int) ≤ mpw := by
  unfold lensDesc at h
  simp only [List.mem_map, List.mem_reverse, List.mem_range] at h
  obtain ⟨j, hj, rfl⟩ := h
  omega

theorem resolveCandidate_inv {st : EngineState} {ctx : List Char}
    {words : List Token} {ci len so : Nat} {p : List Char}
    (h : resolveCandidate st ctx words ci len so = some p) :
    ∃ i, i + len ≤ words.length ∧ tokenSpanPhrase ctx words i len = some p := by
  rw [resolveCandidate] at h
  split at h
  · exact absurd h (by simp)
  · dsimp only at h
    split at h
    · exact absurd h (by simp)
    · rename_i hbound
      refine ⟨ci - so, by omega, ?_⟩
      rw [tokenSpanPhrase]
      split at h
      · exact absurd h (by simp)
      · rename_i w rest heq
        split at h
        · exact h
        · exact absurd h (by simp)

/-- **C7**: whenever hover resolution returns a phrase (with
`maxPhraseWords = k`, `1 ≤ k ≤ 10`), that phrase is exactly the context
substring spanned by `len` consecutive tokens of the context window for
some `1 ≤ len ≤ k` — resolution never returns a phrase spanning more
than `k` tokens. -/
theorem c7_resolve_within_max_phrase_words (st : EngineState)
    (text : List Char) (offset : Nat) (p : List Char)
    (_h1 : 1 ≤ st.maxPhraseWords) (_h2 : st.maxPhraseWords ≤ 10)
    (h : getPhraseAtRange st text offset = some p) :
    ∃ (ctx : List Char) (rel i len : Nat),
      resolveContext text offset = some (ctx, rel) ∧
      1 ≤ len ∧ (len : Int) ≤ st.maxPhraseWords ∧
      i + len ≤ (tokenize ctx).length ∧
      tokenSpanPhrase ctx (tokenize ctx) i len = some p := by
  rw [getPhraseAtRange] at h
  cases hctx : resolveContext text offset with
  | none => rw [hctx] at h; exact absurd h (by simp)
  | some pr =>
    obtain ⟨ctx, rel⟩ := pr
    rw [hctx] at h
    dsimp only at h
    cases hidx : (tokenize ctx).findIdx? (fun w =>
        decide (w.start ≤ rel ∧ rel ≤ w.stop)) with
    | none => rw [hidx] at h; exact absurd h (by simp)
    | some ci =>
      rw [hidx] at h
      obtain ⟨len, hlenmem, hlen⟩ := List.exists_of_findSome?_eq_some h
      obtain ⟨so, _, hso⟩ := List.exists_of_findSome?_eq_some hlen
      obtain ⟨i, hle, hspan⟩ := resolveCandidate_inv hso
      obtain ⟨hl1, hl2⟩ := mem_lensDesc hlenmem
      exact ⟨ctx, rel, i, len, rfl, hl1, hl2, hle, hspan⟩

/-- Engine state for the C7 witness: a single note "hello". -/
def c7State : EngineState :=
  { detectNotes := true, detectHeadings := true, detectTags := true,
    detectProperties := true, maxPhraseWords := 5, minWordLength := 2,
    excludedWords := [],
    noteIndex := [(str "hello", [⟨str "hello.md", str "hello"⟩])],
    headingIndex := [], tagIndex := [], propertyIndex := [] }

theorem c7_resolve_within_max_phrase_words_witness :
    (1 : Int) ≤ c7State.maxPhraseWords ∧ c7State.maxPhraseWords ≤ 10 ∧
      getPhraseAtRange c7State (str "hello") 2 = some (str "hello") ∧
      ∃ (ctx : List Char) (rel i len : Nat),
        resolveContext (str "hello") 2 = some (ctx, rel) ∧
        1 ≤ len ∧ (len : Int) ≤ c7State.maxPhraseWords ∧
        i + len ≤ (tokenize ctx).length ∧
        tokenSpanPhrase ctx (tokenize ctx) i len = some (str "hello") :=
  ⟨by decide, by decide, by decide,
    c7_resolve_within_max_phrase_words c7State (str "hello") 2 (str "hello")
      (by decide) (by decide) (by decide)⟩

/-! ## Claims C2 and C5 — minimum length and malformed configuration -/

/-- Engine state for the C2 counterexample: a note whose title is the
single character "a", with the default `minWordLength = 2`. -/
def c2State : EngineState :=
  { detectNotes := true, detectHeadings := true, detectTags := true,
    detectProperties := true, maxPhraseWords := 5, minWordLength := 2,
    excludedWords := [],
    noteIndex := [(str "a", [⟨str "a.md", str "a"⟩])],
    headingIndex := [], tagIndex := [], propertyIndex := [] }

/-- **C2** counterexample: with `minWordLength = 2`, hover resolution on
the one-character text "a" returns the phrase "a" of length 1 — shorter
than `minMatchLength` — and classification (`getMatchType`) accepts it
rather than returning none: the minimum-length rule is not part of the
classification shared by resolve, and resolve can return phrases shorter
than `minMatchLength`. -/
theorem c2_counterexample :
    getPhraseAtRange c2State (str "a") 0 = some (str "a") ∧
    ((str "a").length : Int) < c2State.minWordLength ∧
    getMatchType c2State (str "a") = some MatchCategory.note :=
  ⟨by decide, by decide, by decide⟩

/-- Engine state for the C5 counterexample and witness: a note "hi" with
the malformed setting `maxPhraseWords = 0` (below the valid 1..10). -/
def c5State : EngineState :=
  { detectNotes := true, detectHeadings := true, detectTags := true,
    detectProperties := true, maxPhraseWords := 0, minWordLength := 2,
    excludedWords := [],
    noteIndex := [(str "hi", [⟨str "hi.md", str "hi"⟩])],
    headingIndex := [], tagIndex := [], propertyIndex := [] }

/-- **C5** counterexample: with the out-of-range `maxPhraseWords = 0` the
engine finds no matches at all in "hi", while with the nearest valid
value 1 it finds the note match — the behaviour under the malformed
setting does not equal the behaviour under the clamped setting, so no
clamping takes place. -/
theorem c5_counterexample :
    findAllMatches c5State (str "hi") = [] ∧
    findAllMatches { c5State with maxPhraseWords := 1 } (str "hi") =
      [⟨str "hi", MatchCategory.note, 0, 2⟩] :=
  ⟨by decide, by decide⟩

theorem lensDesc_eq_nil {mpw : Int} (h : mpw ≤ 0) : lensDesc mpw = [] := by
  unfold lensDesc
  rw [Int.toNat_eq_zero.mpr h]
  rfl

/-- **C5** (amended): the engine performs no clamping; an out-of-range
setting is used verbatim.  In particular, with `maxPhraseWords ≤ 0` the
length loops run zero times, so `findAllMatches` (hence `selectSpans`)
finds nothing and `getPhraseAtRange` resolves nothing; the functions are
total, so no error occurs. -/
theorem c5_no_clamping (st : EngineState) (text : List Char) (offset : Nat)
    (h : st.maxPhraseWords ≤ 0) :
    findAllMatches st text = [] ∧ getPhraseAtRange st text offset = none := by
  have hlens := lensDesc_eq_nil h
  constructor
  · rw [findAllMatches]
    simp [hlens]
  · rw [getPhraseAtRange]
    cases hctx : resolveContext text offset with
    | none => rfl
    | some pr =>
      obtain ⟨ctx, rel⟩ := pr
      dsimp only
      cases hidx : (tokenize ctx).findIdx? (fun w =>
          decide (w.start ≤ rel ∧ rel ≤ w.stop)) with
      | none => rfl
      | some ci => rw [hlens]; rfl

theorem c5_no_clamping_witness :
    c5State.maxPhraseWords ≤ 0 ∧
      (findAllMatches c5State (str "hi") = [] ∧
        getPhraseAtRange c5State (str "hi") 0 = none) :=
  ⟨by decide, c5_no_clamping c5State (str "hi") 0 (by decide)⟩

/-! ## Removal from the indexes (main.ts:216-229, 620-627) -/

/-- One pass of `removeFileFromIndexes` over one mapping
(main.ts:217-228): for each entry in iteration order, filter out the
records whose file path matches; `delete` the key if the filtered list is
empty, else `set` it to the filtered list.  (JS `Map` keys are unique,
`set` on an existing key keeps its position and `delete` of the current
key is safe during iteration, so the loop is entrywise.) -/
def purgeMap {ρ : Type} (pathOf : ρ → List Char) (path : List Char) :
    List (List Char × List ρ) → List (List Char × List ρ)
  | [] => []
  | e :: rest =>
    let filtered := e.2.filter (fun r => pathOf r ≠ path)
    if filtered.isEmpty then purgeMap pathOf path rest
    else (e.1, filtered) :: purgeMap pathOf path rest

/-- `removeFileFromIndexes` (main.ts:216-229): purge the heading, tag and
property mappings (the note index is handled separately by
`NoteIndex.removeFile`). -/
def removeFileFromIndexes (st : EngineState) (f : FileRef) : EngineState :=
  { st with
    headingIndex := purgeMap (fun m => m.file.path) f.path st.headingIndex,
    tagIndex := purgeMap (fun m => m.file.path) f.path st.tagIndex,
    propertyIndex := purgeMap (fun m => m.file.path) f.path st.propertyIndex }

/-- `NoteIndex.removeFile` (main.ts:620-627): look up the key derived
from the file's current basename; if present, filter out the records with
the file's path, deleting the key when the list empties. -/
def noteRemoveFile (f : FileRef) (m : List (List Char × List FileRef)) :
    List (List Char × List FileRef) :=
  let name := lowerStr f.basename
  match mapGet name m with
  | none => m
  | some files =>
    let filtered := files.filter (fun g => g.path ≠ f.path)
    if filtered.isEmpty then mapDelete name m else mapSet name filtered m

/-- The full removal of a document, as performed by the `delete` handler
(main.ts:91-96): `NoteIndex.removeFile` plus `removeFileFromIndexes`
(the two touch different fields, so their order is immaterial). -/
def removeDocument (st : EngineState) (f : FileRef) : EngineState :=
  { removeFileFromIndexes st f with
    noteIndex := noteRemoveFile f st.noteIndex }

theorem mapGet_nil {ν : Type} (k : List Char) :
    mapGet k ([] : List (List Char × ν)) = none := rfl

theorem mapGet_cons {ν : Type} (e : List Char × ν)
    (rest : List (List Char × ν)) (k : List Char) :
    mapGet k (e :: rest) = if e.1 = k then some e.2 else mapGet k rest := by
  rw [mapGet]
  by_cases he : e.1 = k
  · rw [List.find?_cons_of_pos _ (by simpa using he), if_pos he]
    rfl
  · rw [List.find?_cons_of_neg _ (by simpa using he), if_neg he]
    rfl

theorem mapSet_cons {ν : Type} (k : List Char) (v : ν) (a : List Char × ν)
    (l : List (List Char × ν)) :
    mapSet k v (a :: l) = if a.1 = k then (k, v) :: l else a :: mapSet k v l :=
  rfl

theorem mapGet_mapSet_self {ν : Type} (k : List Char) (v : ν)
    (m : List (List Char × ν)) : mapGet k (mapSet k v m) = some v := by
  induction m with
  | nil => simp [mapSet, mapGet_cons]
  | cons e rest ih =>
    rw [mapSet]
    by_cases he : e.1 = k
    · rw [if_pos he, mapGet_cons, if_pos rfl]
    · rw [if_neg he, mapGet_cons, if_neg he]
      exact ih

theorem mapSet_mapSet_self {ν : Type} (k : List Char) (v : ν)
    (m : List (List Char × ν)) :
    mapSet k v (mapSet k v m) = mapSet k v m := by
  induction m with
  | nil => simp [mapSet]
  | cons e rest ih =>
    rw [mapSet]
    by_cases he : e.1 = k
    · rw [if_pos he]
      simp [mapSet]
    · rw [if_neg he, mapSet_cons, if_neg he, ih]

theorem mapGet_mapDelete_self {ν : Type} (k : List Char)
    (m : List (List Char × ν)) : mapGet k (mapDelete k m) = none := by
  induction m with
  | nil => rfl
  | cons e rest ih =>
    rw [mapDelete, List.filter_cons]
    by_cases he : e.1 = k
    · rw [if_neg (by simpa using he)]
      exact ih
    · rw [if_pos (by simpa using he), mapGet_cons, if_neg he]
      exact ih

theorem mapGet_mapSet_ne {ν : Type} {k k' : List Char} (v : ν)
    (m : List (List Char × ν)) (h : k ≠ k') :
    mapGet k (mapSet k' v m) = mapGet k m := by
  induction m with
  | nil => simp [mapSet, mapGet_cons, mapGet_nil, Ne.symm h]
  | cons e rest ih =>
    rw [mapSet]
    by_cases he : e.1 = k'
    · rw [if_pos he, mapGet_cons, if_neg (Ne.symm h), mapGet_cons,
        if_neg (he ▸ Ne.symm h)]
    · rw [if_neg he, mapGet_cons, mapGet_cons]
      by_cases hek : e.1 = k
      · rw [if_pos hek, if_pos hek]
      · rw [if_neg hek, if_neg hek]
        exact ih

theorem mapGet_mapDelete_ne {ν : Type} {k k' : List Char}
    (m : List (List Char × ν)) (h : k ≠ k') :
    mapGet k (mapDelete k' m) = mapGet k m := by
  induction m with
  | nil => rfl
  | cons e rest ih =>
    rw [mapDelete, List.filter_cons]
    by_cases he : e.1 = k'
    · rw [if_neg (by simpa using he), mapGet_cons,
        if_neg (fun hek : e.1 = k => h (hek ▸ he ▸ rfl))]
      exact ih
    · rw [if_pos (by simpa using he), mapGet_cons, mapGet_cons]
      by_cases hek : e.1 = k
      · rw [if_pos hek, if_pos hek]
      · rw [if_neg hek, if_neg hek]
        exact ih

theorem mapGet_eq_none_iff {ν : Type} {k : List Char}
    {m : List (List Char × ν)} :
    mapGet k m = none ↔ ∀ e ∈ m, e.1 ≠ k := by
  induction m with
  | nil => simp [mapGet_nil]
  | cons e rest ih =>
    rw [mapGet_cons]
    by_cases he : e.1 = k
    · rw [if_pos he]
      constructor
      · intro h
        exact absurd h (by simp)
      · intro h
        exact absurd he (h e (List.mem_cons_self e rest))
    · rw [if_neg he, ih]
      constructor
      · intro h e' he'
        rcases List.mem_cons.mp he' with rfl | hm
        · exact he
        · exact h e' hm
      · intro h e' he'
        exact h e' (List.mem_cons_of_mem _ he')

/-! ## Well-formedness of index states (JS `Map` invariants and the
indexing discipline of `NoteIndex.addFile`, main.ts:615-619) -/

/-- JS `Map` invariant: keys are unique. -/
abbrev NoDupKeys {ν : Type} (m : List (List Char × ν)) : Prop :=
  (m.map Prod.fst).Nodup

/-- Mapping invariant from the spec: no key holds an empty record list. -/
abbrev NoEmptyEntries {ρ : Type} (m : List (List Char × List ρ)) : Prop :=
  ∀ e ∈ m, e.2 ≠ []

/-- `NoteIndex.addFile` (main.ts:615-619) keys every record by its
lowercased basename, so every record sits under that key. -/
abbrev NoteKeysConsistent (m : List (List Char × List FileRef)) : Prop :=
  ∀ e ∈ m, ∀ r ∈ e.2, lowerStr r.basename = e.1

/-- A file's basename is derived from its path, so two records with the
same path agree on the (normalized) basename. -/
abbrev PathDeterminesBasename (m : List (List Char × List FileRef))
    (f : FileRef) : Prop :=
  ∀ e ∈ m, ∀ r ∈ e.2, r.path = f.path → lowerStr r.basename = lowerStr f.basename

/-- What removing the document with path `path` must do to a mapping
(spec §3): every record of that document is gone, no empty entry
remains, each key's list is exactly the original list filtered of that
document's records (in original order) — the key disappearing exactly
when the list empties — and the key order of the surviving entries is
unchanged. -/
def RemovalSpec {ρ : Type} (pathOf : ρ → List Char) (path : List Char)
    (before after : List (List Char × List ρ)) : Prop :=
  (∀ e ∈ after, ∀ r ∈ e.2, pathOf r ≠ path) ∧
  (∀ e ∈ after, e.2 ≠ []) ∧
  (∀ k, mapGet k after = (mapGet k before).bind (fun rs =>
      if (rs.filter (fun r => pathOf r ≠ path)).isEmpty then none
      else some (rs.filter (fun r => pathOf r ≠ path)))) ∧
  List.Sublist (after.map Prod.fst) (before.map Prod.fst)

theorem purgeMap_cons {ρ : Type} (pathOf : ρ → List Char) (path : List Char)
    (e : List Char × List ρ) (rest : List (List Char × List ρ)) :
    purgeMap pathOf path (e :: rest) =
      if (e.2.filter (fun r => pathOf r ≠ path)).isEmpty
      then purgeMap pathOf path rest
      else (e.1, e.2.filter (fun r => pathOf r ≠ path)) ::
        purgeMap pathOf path rest := rfl

theorem purgeMap_no_path {ρ : Type} (pathOf : ρ → List Char)
    (path : List Char) :
    ∀ (m : List (List Char × List ρ)), ∀ e ∈ purgeMap pathOf path m,
      ∀ r ∈ e.2, pathOf r ≠ path := by
  intro m
  induction m with
  | nil => intro e he; exact absurd he (List.not_mem_nil e)
  | cons a rest ih =>
    intro e he r hr
    rw [purgeMap_cons] at he
    by_cases hemp : (a.2.filter (fun r => pathOf r ≠ path)).isEmpty
    · rw [if_pos hemp] at he
      exact ih e he r hr
    · rw [if_neg hemp] at he
      rcases List.mem_cons.mp he with rfl | hm
      · have := List.of_mem_filter hr
        simpa using this
      · exact ih e hm r hr

theorem purgeMap_nonempty {ρ : Type} (pathOf : ρ → List Char)
    (path : List Char) :
    ∀ (m : List (List Char × List ρ)), ∀ e ∈ purgeMap pathOf path m,
      e.2 ≠ [] := by
  intro m
  induction m with
  | nil => intro e he; exact absurd he (List.not_mem_nil e)
  | cons a rest ih =>
    intro e he
    rw [purgeMap_cons] at he

    by_cases hemp : (a.2.filter (fun r => pathOf r ≠ path)).isEmpty
    · rw [if_pos hemp] at he
      exact ih e he
    · rw [if_neg hemp] at he
      rcases List.mem_cons.mp he with rfl | hm
      · intro hnil
        exact hemp (by simpa using hnil)
      · exact ih e hm

theorem purgeMap_keys_sublist {ρ : Type} (pathOf : ρ → List Char)
    (path : List Char) (m : List (List Char × List ρ)) :
    List.Sublist ((purgeMap pathOf path m).map Prod.fst)
      (m.map Prod.fst) := by
  induction m with
  | nil => exact List.Sublist.refl _
  | cons a rest ih =>
    rw [purgeMap_cons]
    by_cases hemp : (a.2.filter (fun r => pathOf r ≠ path)).isEmpty
    · rw [if_pos hemp, List.map_cons]
      exact ih.cons _
    · rw [if_neg hemp, List.map_cons, List.map_cons]
      exact ih.cons₂ _

theorem mapGet_eq_none_of_not_mem_keys {ν : Type} {k : List Char}
    {m : List (List Char × ν)} (h : k ∉ m.map Prod.fst) :
    mapGet k m = none :=
  mapGet_eq_none_iff.mpr (fun _e he hek =>
    h (hek ▸ List.mem_map_of_mem Prod.fst he))

theorem purgeMap_get {ρ : Type} (pathOf : ρ → List Char) (path : List Char)
    (m : List (List Char × List ρ)) (hnd : NoDupKeys m) (k : List Char) :
    mapGet k (purgeMap pathOf path m) = (mapGet k m).bind (fun rs =>
      if (rs.filter (fun r => pathOf r ≠ path)).isEmpty then none
      else some (rs.filter (fun r => pathOf r ≠ path))) := by
  induction m with
  | nil => rfl
  | cons a rest ih =>
    rw [NoDupKeys, List.map_cons, List.nodup_cons] at hnd
    rw [purgeMap_cons, mapGet_cons]
    by_cases hk : a.1 = k
    · rw [if_pos hk]
      by_cases hemp : (a.2.filter (fun r => pathOf r ≠ path)).isEmpty
      · rw [if_pos hemp]
        have hnot : k ∉ (purgeMap pathOf path rest).map Prod.fst :=
          fun hmem => hnd.1 (hk ▸ (purgeMap_keys_sublist pathOf path rest).subset hmem)
        rw [mapGet_eq_none_of_not_mem_keys hnot, Option.some_bind, if_pos hemp]
      · rw [if_neg hemp, mapGet_cons, if_pos hk, Option.some_bind, if_neg hemp]
    · rw [if_neg hk]
      by_cases hemp : (a.2.filter (fun r => pathOf r ≠ path)).isEmpty
      · rw [if_pos hemp]
        exact ih hnd.2
      · rw [if_neg hemp, mapGet_cons, if_neg hk]
        exact ih hnd.2

theorem purgeMap_idem {ρ : Type} (pathOf : ρ → List Char) (path : List Char)
    (m : List (List Char × List ρ)) :
    purgeMap pathOf path (purgeMap pathOf path m) = purgeMap pathOf path m := by
  induction m with
  | nil => rfl
  | cons a rest ih =>
    rw [purgeMap_cons]
    by_cases hemp : (a.2.filter (fun r => pathOf r ≠ path)).isEmpty
    · rw [if_pos hemp]
      exact ih
    · rw [if_neg hemp, purgeMap_cons]
      have hff : ((a.2.filter (fun r => pathOf r ≠ path)).filter
          (fun r => pathOf r ≠ path)) = a.2.filter (fun r => pathOf r ≠ path) :=
        List.filter_eq_self.mpr (fun r hr => (List.mem_filter.mp hr).2)
      dsimp only
      rw [hff, if_neg hemp, ih]

theorem purgeMap_spec {ρ : Type} (pathOf : ρ → List Char) (path : List Char)
    (m : List (List Char × List ρ)) (hnd : NoDupKeys m) :
    RemovalSpec pathOf path m (purgeMap pathOf path m) :=
  ⟨purgeMap_no_path pathOf path m, purgeMap_nonempty pathOf path m,
    purgeMap_get pathOf path m hnd, purgeMap_keys_sublist pathOf path m⟩

theorem mapGet_some_ex {ν : Type} {k : List Char}
    {m : List (List Char × ν)} {v : ν} (h : mapGet k m = some v) :
    ∃ e, e ∈ m ∧ e.1 = k ∧ e.2 = v := by
  rw [mapGet] at h
  cases hf : m.find? (fun e => e.1 = k) with
  | none => rw [hf] at h; exact absurd h (by simp)
  | some e =>
    rw [hf] at h
    have hm := List.mem_of_find?_eq_some hf
    have hp := List.find?_some hf
    simp only [decide_eq_true_eq] at hp
    rw [Option.map_some'] at h
    injection h with h
    exact ⟨e, hm, hp, h⟩

theorem mapSet_keys_of_get_some {ν : Type} {k : List Char} (v : ν)
    {m : List (List Char × ν)} {rs : ν} (h : mapGet k m = some rs) :
    (mapSet k v m).map Prod.fst = m.map Prod.fst := by
  induction m with
  | nil => exact absurd h (by simp [mapGet_nil])
  | cons e rest ih =>
    rw [mapGet_cons] at h
    rw [mapSet_cons]
    by_cases he : e.1 = k
    · rw [if_pos he, List.map_cons, List.map_cons, he]
    · rw [if_neg he, List.map_cons, List.map_cons, ih (by rwa [if_neg he] at h)]

theorem mem_mapSet_of_nodup {ν : Type} {k : List Char} {v : ν}
    {m : List (List Char × ν)} (hnd : NoDupKeys m) {x : List Char × ν}
    (hx : x ∈ mapSet k v m) : x = (k, v) ∨ (x ∈ m ∧ x.1 ≠ k) := by
  induction m with
  | nil =>
    rcases List.mem_singleton.mp hx with rfl
    exact Or.inl rfl
  | cons e rest ih =>
    rw [NoDupKeys, List.map_cons, List.nodup_cons] at hnd
    rw [mapSet_cons] at hx
    by_cases he : e.1 = k
    · rw [if_pos he] at hx
      rcases List.mem_cons.mp hx with rfl | hm
      · exact Or.inl rfl
      · refine Or.inr ⟨List.mem_cons_of_mem _ hm, fun hxk => ?_⟩
        exact hnd.1 (he ▸ hxk ▸ List.mem_map_of_mem Prod.fst hm)
    · rw [if_neg he] at hx
      rcases List.mem_cons.mp hx with rfl | hm
      · exact Or.inr ⟨List.mem_cons_self _ _, he⟩
      · rcases ih hnd.2 hm with h | ⟨hmem, hne⟩
        · exact Or.inl h
        · exact Or.inr ⟨List.mem_cons_of_mem _ hmem, hne⟩

theorem noteRemoveFile_eq (f : FileRef)
    (m : List (List Char × List FileRef)) :
    noteRemoveFile f m =
      match mapGet (lowerStr f.basename) m with
      | none => m
      | some files =>
        if (files.filter (fun g => g.path ≠ f.path)).isEmpty
        then mapDelete (lowerStr f.basename) m
        else mapSet (lowerStr f.basename)
          (files.filter (fun g => g.path ≠ f.path)) m := rfl

/-- If `k` is not the removed file's key, the expected-removal transform
on `mapGet k` is the identity: no record under `k` can carry the removed
path (well-formed states key note records by their normalized basename,
and path determines basename). -/
theorem removalBind_eq_self (f : FileRef) {m : List (List Char × List FileRef)}
    (hcons : NoteKeysConsistent m) (hcoh : PathDeterminesBasename m f)
    (hne : NoEmptyEntries m) {k : List Char} (hk : k ≠ lowerStr f.basename) :
    ((mapGet k m).bind fun rs =>
      if (rs.filter (fun r => r.path ≠ f.path)).isEmpty then none
      else some (rs.filter (fun r => r.path ≠ f.path))) = mapGet k m := by
  cases hget : mapGet k m with
  | none => rfl
  | some rs =>
    obtain ⟨e, hem, hek, hers⟩ := mapGet_some_ex hget
    have hfil : rs.filter (fun r => r.path ≠ f.path) = rs := by
      apply List.filter_eq_self.mpr
      intro r hr
      simp only [decide_eq_true_eq]
      intro heq
      have h1 := hcons e hem r (hers ▸ hr)
      have h2 := hcoh e hem r (hers ▸ hr) heq
      exact hk (by rw [← hek, ← h1, h2])
    rw [Option.some_bind, hfil, if_neg]
    intro hempty
    exact hne e hem (hers ▸ List.isEmpty_iff.mp hempty)

theorem noteRemoveFile_spec (f : FileRef)
    (m : List (List Char × List FileRef)) (hnd : NoDupKeys m)
    (hcons : NoteKeysConsistent m) (hcoh : PathDeterminesBasename m f)
    (hne : NoEmptyEntries m) :
    RemovalSpec (fun r => r.path) f.path m (noteRemoveFile f m) := by
  rw [noteRemoveFile_eq]
  cases hget : mapGet (lowerStr f.basename) m with
  | none =>
    refine ⟨?_, hne, ?_, List.Sublist.refl _⟩
    · intro e he r hr heq
      have h1 := hcons e he r hr
      have h2 := hcoh e he r hr heq
      rw [mapGet_eq_none_iff] at hget
      exact hget e he (by rw [← h1, h2])
    · intro k
      by_cases hk : k = lowerStr f.basename
      · rw [hk, hget]
        rfl
      · rw [removalBind_eq_self f hcons hcoh hne hk]
  | some files =>
    dsimp only
    by_cases hemp : (files.filter (fun g => g.path ≠ f.path)).isEmpty
    · rw [if_pos hemp]
      refine ⟨?_, ?_, ?_, (List.filter_sublist m).map Prod.fst⟩
      · intro e he r hr heq
        have hemem := List.mem_of_mem_filter he
        have hkey := List.of_mem_filter he
        simp only [decide_eq_true_eq] at hkey
        have h1 := hcons e hemem r hr
        have h2 := hcoh e hemem r hr heq
        exact hkey (by rw [← h1, h2])
      · intro e he
        exact hne e (List.mem_of_mem_filter he)
      · intro k
        by_cases hk : k = lowerStr f.basename
        · rw [hk, mapGet_mapDelete_self, hget, Option.some_bind, if_pos hemp]
        · rw [mapGet_mapDelete_ne m hk, removalBind_eq_self f hcons hcoh hne hk]
    · rw [if_neg hemp]
      refine ⟨?_, ?_, ?_, ?_⟩
      · intro e he r hr heq
        rcases mem_mapSet_of_nodup hnd he with rfl | ⟨hemem, hkey⟩
        · have := List.of_mem_filter hr
          simp only [decide_eq_true_eq] at this
          exact this heq
        · have h1 := hcons e hemem r hr
          have h2 := hcoh e hemem r hr heq
          exact hkey (by rw [← h1, h2])
      · intro e he
        rcases mem_mapSet_of_nodup hnd he with rfl | ⟨hemem, _⟩
        · intro hnil
          exact hemp (by simpa using hnil)
        · exact hne e hemem
      · intro k
        by_cases hk : k = lowerStr f.basename
        · rw [hk, mapGet_mapSet_self, hget, Option.some_bind, if_neg hemp]
        · rw [mapGet_mapSet_ne _ m hk, removalBind_eq_self f hcons hcoh hne hk]
      · rw [mapSet_keys_of_get_some _ hget]

theorem noteRemoveFile_idem (f : FileRef)
    (m : List (List Char × List FileRef)) :
    noteRemoveFile f (noteRemoveFile f m) = noteRemoveFile f m := by
  cases hget : mapGet (lowerStr f.basename) m with
  | none =>
    have h1 : noteRemoveFile f m = m := by rw [noteRemoveFile_eq, hget]
    rw [h1]
    exact h1
  | some files =>
    by_cases hemp : (files.filter (fun g => g.path ≠ f.path)).isEmpty
    · have h1 : noteRemoveFile f m = mapDelete (lowerStr f.basename) m := by
        rw [noteRemoveFile_eq, hget]
        dsimp only
        rw [if_pos hemp]
      rw [h1, noteRemoveFile_eq, mapGet_mapDelete_self]
    · have h1 : noteRemoveFile f m = mapSet (lowerStr f.basename)
          (files.filter (fun g => g.path ≠ f.path)) m := by
        rw [noteRemoveFile_eq, hget]
        dsimp only
        rw [if_neg hemp]
      have hff : ((files.filter (fun g => g.path ≠ f.path)).filter
          (fun g => g.path ≠ f.path)) = files.filter (fun g => g.path ≠ f.path) :=
        List.filter_eq_self.mpr (fun r hr => (List.mem_filter.mp hr).2)
      rw [h1, noteRemoveFile_eq, mapGet_mapSet_self]
      dsimp only
      rw [hff, if_neg hemp, mapSet_mapSet_self]

/-- **C8**: `removeDocument` is idempotent: removing the same document
twice in a row leaves all four mappings exactly as after the first
removal (and, the functions being total, no error is raised). -/
theorem c8_removeDocument_idempotent (st : EngineState) (f : FileRef) :
    removeDocument (removeDocument st f) f = removeDocument st f := by
  simp only [removeDocument, removeFileFromIndexes]
  rw [purgeMap_idem, purgeMap_idem, purgeMap_idem, noteRemoveFile_idem]

/-- **C4**: on a well-formed index state (unique `Map` keys, no empty
record lists, note records keyed by their normalized basename, basename
determined by path), removing a document satisfies the removal
specification on all four mappings: exactly the records whose path is the
document's are dropped, surviving lists keep their order, keys whose list
empties are deleted, no mapping retains an empty record list, and key
order is preserved. -/
theorem c4_removal_exact (st : EngineState) (f : FileRef)
    (hndN : NoDupKeys st.noteIndex) (hcons : NoteKeysConsistent st.noteIndex)
    (hcoh : PathDeterminesBasename st.noteIndex f)
    (hneN : NoEmptyEntries st.noteIndex)
    (hndH : NoDupKeys st.headingIndex) (hndT : NoDupKeys st.tagIndex)
    (hndP : NoDupKeys st.propertyIndex) :
    RemovalSpec (fun r => r.path) f.path st.noteIndex
        (removeDocument st f).noteIndex ∧
    RemovalSpec (fun m => m.file.path) f.path st.headingIndex
        (removeDocument st f).headingIndex ∧
    RemovalSpec (fun m => m.file.path) f.path st.tagIndex
        (removeDocument st f).tagIndex ∧
    RemovalSpec (fun m => m.file.path) f.path st.propertyIndex
        (removeDocument st f).propertyIndex :=
  ⟨noteRemoveFile_spec f st.noteIndex hndN hcons hcoh hneN,
    purgeMap_spec _ f.path st.headingIndex hndH,
    purgeMap_spec _ f.path st.tagIndex hndT,
    purgeMap_spec _ f.path st.propertyIndex hndP⟩

/-- **C10**: removal purges by document identity (file path): after one
`removeDocument`, no record whose path equals the removed file's path
remains in any of the four mappings — also when the document was indexed
several times and its records appear as duplicates in the lists.  (The
note mapping needs the well-formedness of reachable states: duplicate
indexing always re-keys by the same normalized basename.) -/
theorem c10_removal_purges_by_path (st : EngineState) (f : FileRef)
    (hndN : NoDupKeys st.noteIndex) (hcons : NoteKeysConsistent st.noteIndex)
    (hcoh : PathDeterminesBasename st.noteIndex f) :
    (∀ e ∈ (removeDocument st f).noteIndex, ∀ r ∈ e.2, r.path ≠ f.path) ∧
    (∀ e ∈ (removeDocument st f).headingIndex, ∀ r ∈ e.2,
        r.file.path ≠ f.path) ∧
    (∀ e ∈ (removeDocument st f).tagIndex, ∀ r ∈ e.2,
        r.file.path ≠ f.path) ∧
    (∀ e ∈ (removeDocument st f).propertyIndex, ∀ r ∈ e.2,
        r.file.path ≠ f.path) := by
  refine ⟨?_, purgeMap_no_path _ f.path st.headingIndex,
    purgeMap_no_path _ f.path st.tagIndex,
    purgeMap_no_path _ f.path st.propertyIndex⟩
  show ∀ e ∈ noteRemoveFile f st.noteIndex, ∀ r ∈ e.2, r.path ≠ f.path
  rw [noteRemoveFile_eq]
  cases hget : mapGet (lowerStr f.basename) st.noteIndex with
  | none =>
    intro e he r hr heq
    have h1 := hcons e he r hr
    have h2 := hcoh e he r hr heq
    rw [mapGet_eq_none_iff] at hget
    exact hget e he (by rw [← h1, h2])
  | some files =>
    dsimp only
    by_cases hemp : (files.filter (fun g => g.path ≠ f.path)).isEmpty
    · rw [if_pos hemp]
      intro e he r hr heq
      have hemem := List.mem_of_mem_filter he
      have hkey := List.of_mem_filter he
      simp only [decide_eq_true_eq] at hkey
      have h1 := hcons e hemem r hr
      have h2 := hcoh e hemem r hr heq
      exact hkey (by rw [← h1, h2])
    · rw [if_neg hemp]
      intro e he r hr heq
      rcases mem_mapSet_of_nodup hndN he with rfl | ⟨hemem, hkey⟩
      · have := List.of_mem_filter hr
        simp only [decide_eq_true_eq] at this
        exact this heq
      · have h1 := hcons e hemem r hr
        have h2 := hcoh e hemem r hr heq
        exact hkey (by rw [← h1, h2])

/-- Engine state for the C4 witness: "Note A" contributes records to all
four mappings; "Intro" is shared with "Note B", "Solo" is exclusive. -/
def c4State : EngineState :=
  { detectNotes := true, detectHeadings := true, detectTags := true,
    detectProperties := true, maxPhraseWords := 5, minWordLength := 2,
    excludedWords := [],
    noteIndex := [(str "note a", [⟨str "Note A.md", str "Note A"⟩]),
      (str "note b", [⟨str "Note B.md", str "Note B"⟩])],
    headingIndex := [(str "intro",
      [⟨⟨str "Note A.md", str "Note A"⟩, str "Intro", 0⟩,
        ⟨⟨str "Note B.md", str "Note B"⟩, str "Intro", 3⟩]),
      (str "solo", [⟨⟨str "Note A.md", str "Note A"⟩, str "Solo", 7⟩])],
    tagIndex := [(str "project",
      [⟨⟨str "Note A.md", str "Note A"⟩, str "#project", 1⟩])],
    propertyIndex := [(str "alice",
      [⟨⟨str "Note A.md", str "Note A"⟩, str "author", str "Alice"⟩])] }

/-- The file removed in the C4 witness. -/
def c4File : FileRef := ⟨str "Note A.md", str "Note A"⟩

theorem c4_removal_exact_witness :
    NoDupKeys c4State.noteIndex ∧ NoteKeysConsistent c4State.noteIndex ∧
      PathDeterminesBasename c4State.noteIndex c4File ∧
      NoEmptyEntries c4State.noteIndex ∧ NoDupKeys c4State.headingIndex ∧
      NoDupKeys c4State.tagIndex ∧ NoDupKeys c4State.propertyIndex ∧
      (RemovalSpec (fun r => r.path) c4File.path c4State.noteIndex
          (removeDocument c4State c4File).noteIndex ∧
        RemovalSpec (fun m => m.file.path) c4File.path c4State.headingIndex
          (removeDocument c4State c4File).headingIndex ∧
        RemovalSpec (fun m => m.file.path) c4File.path c4State.tagIndex
          (removeDocument c4State c4File).tagIndex ∧
        RemovalSpec (fun m => m.file.path) c4File.path c4State.propertyIndex
          (removeDocument c4State c4File).propertyIndex) :=
  ⟨by decide, by decide, by decide, by decide, by decide, by decide, by decide,
    c4_removal_exact c4State c4File (by decide) (by decide) (by decide)
      (by decide) (by decide) (by decide) (by decide)⟩

/-- Engine state for the C10 witness: "Twice" was indexed twice without an
intermediate removal, so its records appear as duplicates. -/
def c10State : EngineState :=
  { detectNotes := true, detectHeadings := true, detectTags := true,
    detectProperties := true, maxPhraseWords := 5, minWordLength := 2,
    excludedWords := [],
    noteIndex := [(str "twice",
      [⟨str "Twice.md", str "Twice"⟩, ⟨str "Twice.md", str "Twice"⟩])],
    headingIndex := [(str "part",
      [⟨⟨str "Twice.md", str "Twice"⟩, str "Part", 1⟩,
        ⟨⟨str "Twice.md", str "Twice"⟩, str "Part", 1⟩,
        ⟨⟨str "Other.md", str "Other"⟩, str "Part", 2⟩])],
    tagIndex := [], propertyIndex := [] }

/-- The file removed in the C10 witness. -/
def c10File : FileRef := ⟨str "Twice.md", str "Twice"⟩

theorem c10_removal_purges_by_path_witness :
    NoDupKeys c10State.noteIndex ∧ NoteKeysConsistent c10State.noteIndex ∧
      PathDeterminesBasename c10State.noteIndex c10File ∧
      ((∀ e ∈ (removeDocument c10State c10File).noteIndex, ∀ r ∈ e.2,
          r.path ≠ c10File.path) ∧
        (∀ e ∈ (removeDocument c10State c10File).headingIndex, ∀ r ∈ e.2,
          r.file.path ≠ c10File.path) ∧
        (∀ e ∈ (removeDocument c10State c10File).tagIndex, ∀ r ∈ e.2,
          r.file.path ≠ c10File.path) ∧
        (∀ e ∈ (removeDocument c10State c10File).propertyIndex, ∀ r ∈ e.2,
          r.file.path ≠ c10File.path)) :=
  ⟨by decide, by decide, by decide,
    c10_removal_purges_by_path c10State c10File (by decide) (by decide)
      (by decide)⟩

end MagicLink
